import Mathlib

/-!
KVStorage: a key-value store with per-entry expiration.

A shallow embedding of `src/kvstorage.h` (class template `KVStorage<Clock>`), instantiated as in
`src/test.cpp` with `FakeClock`, whose `time_point` is `std::chrono::steady_clock::time_point`.

* The clock is external to the store (`Clock& clock_`); every operation that reads
  `clock_.now()` takes that instant as the explicit argument `now`.
* `std::unordered_map<std::string, ValueEntry>` is a list of (key, entry) pairs in the map's
  iteration order, with pairwise distinct keys (`KVStorage.WF`).  The iteration order of an
  unordered map is unspecified: statements quantified over every well-formed store hold for
  every order the map may have.
* A time point is its tick count: a signed 64-bit number of nanoseconds, so `TimePoint::max()`
  is `2^63 - 1` ticks and one second is `10^9` ticks.  A sum that leaves the 64-bit range wraps
  around (`wrapInt64`), as two's complement hardware does; the C++ standard leaves the result of
  such a sum undefined.
* `uint32_t` arguments (`ttl`, `count`) are natural numbers; the source only ever receives
  values below `2^32`, which the statements below include.
-/

namespace KVStorage

/-- A `std::string` used as key: the list of its characters; `operator<` on strings is the
lexicographic order of that list. -/
abbrev Key := List Char

/-- A `std::string` used as value: only stored and handed back. -/
abbrev Value := String

/-- The tick count of a `time_point` (`using TimePoint = typename Clock::time_point`). -/
abbrev TimePoint := Int

/-- The value of `TimePoint::max()`: the largest signed 64-bit tick count. -/
def TimePoint.max : TimePoint := (9223372036854775807 : Int)

/-- The value of `TimePoint::min()`: the smallest signed 64-bit tick count. -/
def TimePoint.min : TimePoint := (-9223372036854775808 : Int)

/-- Ticks in one `std::chrono::seconds(1)`: the clock counts nanoseconds. -/
def ticksPerSecond : Int := 1000000000

/-- A tick count that a 64-bit `time_point` can hold. -/
def TimePoint.InRange (t : TimePoint) : Prop := TimePoint.min ≤ t ∧ t ≤ TimePoint.max

instance (t : TimePoint) : Decidable (TimePoint.InRange t) := by
  unfold TimePoint.InRange; infer_instance

/-- Two's complement reduction of an integer to the signed 64-bit range. -/
def wrapInt64 (x : Int) : Int :=
  (x + 9223372036854775808) % 18446744073709551616 - 9223372036854775808

/-- The `struct ValueEntry` of the source. -/
structure ValueEntry where
  value : Value
  expiration_time : TimePoint
deriving DecidableEq, Repr, Inhabited

/-- The `map_.find(key)` of the source: the entry stored under `key`, if any. -/
def find : List (Key × ValueEntry) → Key → Option ValueEntry
  | [], _ => none
  | (k, e) :: rest, key => if k = key then some e else find rest key

/-- The `map_[key] = entry` of the source: overwrite the entry of `key` where it is, or add a new
element (here: last in iteration order; the real position is unspecified). -/
def assign : List (Key × ValueEntry) → Key → ValueEntry → List (Key × ValueEntry)
  | [], key, entry => [(key, entry)]
  | (k, e) :: rest, key, entry =>
    if k = key then (k, entry) :: rest else (k, e) :: assign rest key entry

/-- The `map_.erase(key)` of the source: the number of elements removed (0 or 1) and the
remaining elements, whose relative order is kept. -/
def erase : List (Key × ValueEntry) → Key → Nat × List (Key × ValueEntry)
  | [], _ => (0, [])
  | (k, e) :: rest, key =>
    if k = key then (1, rest) else ((erase rest key).1, (k, e) :: (erase rest key).2)

end KVStorage

/-- The state of a `KVStorage<Clock>` object: its member `map_`, in iteration order. -/
structure KVStorage where
  map_ : List (KVStorage.Key × KVStorage.ValueEntry)
deriving DecidableEq, Repr

namespace KVStorage

/-- The class invariant of `std::unordered_map`: no two elements have the same key. -/
def WF (s : KVStorage) : Prop := (s.map_.map Prod.fst).Nodup

instance (s : KVStorage) : Decidable s.WF := by
  unfold WF; infer_instance

/-- A store with no entries (a default-constructed `map_`). -/
def empty : KVStorage := ⟨[]⟩

/-- The local `expiration_time` computed by `set`: `TimePoint::max()` for a zero ttl, and
otherwise `clock_.now() + std::chrono::seconds(ttl)` in 64-bit arithmetic. -/
def setExpiration (now : TimePoint) (ttl : Nat) : TimePoint :=
  if ttl = 0 then TimePoint.max else wrapInt64 (now + (ttl : Int) * ticksPerSecond)

/-- `void set(std::string key, std::string value, uint32_t ttl)`. -/
def set (s : KVStorage) (now : TimePoint) (key : Key) (value : Value) (ttl : Nat) : KVStorage :=
  ⟨assign s.map_ key ⟨value, setExpiration now ttl⟩⟩

/-- `bool remove(std::string_view key)`: the returned flag and the store afterwards. -/
def remove (s : KVStorage) (key : Key) : Bool × KVStorage :=
  (decide ((erase s.map_ key).1 > 0), ⟨(erase s.map_ key).2⟩)

/-- `std::optional<std::string> get(std::string_view key) const`. -/
def get (s : KVStorage) (now : TimePoint) (key : Key) : Option Value :=
  match find s.map_ key with
  | none => none
  | some entry => if now ≥ entry.expiration_time then none else some entry.value

/-- The `std::lower_bound(keys.begin(), keys.end(), key)` of the source on a sorted list: the
suffix that starts at the first element not less than `key`. -/
def lower_bound (keys : List Key) (key : Key) : List Key :=
  keys.dropWhile (fun k => decide (k < key))

/-- The `while` loop of `getManySorted`: `it` is the rest of the sorted keys, `result` the pairs
collected so far.  The answer is `none` if `map_.at(cur_key)` throws. -/
def getManySortedLoop (s : KVStorage) (now : TimePoint) (count : Nat) :
    List Key → List (Key × Value) → Option (List (Key × Value))
  | [], result => some result
  | cur_key :: it, result =>
    if result.length < count then
      match find s.map_ cur_key with
      | none => none
      | some entry =>
        if now < entry.expiration_time then
          getManySortedLoop s now count it (result ++ [(cur_key, entry.value)])
        else
          getManySortedLoop s now count it result
    else some result

/-- The function `getManySorted(std::string_view key, uint32_t count) const`; `std::sort` of the
keys is insertion sort. -/
def getManySorted (s : KVStorage) (now : TimePoint) (key : Key) (count : Nat) :
    Option (List (Key × Value)) :=
  if count = 0 then some []
  else
    getManySortedLoop s now count
      (lower_bound ((s.map_.map Prod.fst).insertionSort (fun a b => a ≤ b)) key) []

/-- The `for` loop of `removeOneExpiredEntry` over `map_` in iteration order: the returned pair,
if any, and the elements left. -/
def removeOneExpiredEntryLoop (now : TimePoint) :
    List (Key × ValueEntry) → Option (Key × Value) × List (Key × ValueEntry)
  | [] => (none, [])
  | (k, e) :: rest =>
    if now ≥ e.expiration_time ∧ e.expiration_time ≠ TimePoint.max then
      (some (k, e.value), rest)
    else
      ((removeOneExpiredEntryLoop now rest).1, (k, e) :: (removeOneExpiredEntryLoop now rest).2)

/-- The function `removeOneExpiredEntry()`: the returned optional and the store afterwards. -/
def removeOneExpiredEntry (s : KVStorage) (now : TimePoint) : Option (Key × Value) × KVStorage :=
  ((removeOneExpiredEntryLoop now s.map_).1, ⟨(removeOneExpiredEntryLoop now s.map_).2⟩)

/-- The `for` loop of the constructor: `set` for each triple of the span, in order. -/
def constructLoop (now : TimePoint) : List (Key × Value × Nat) → KVStorage → KVStorage
  | [], s => s
  | (key, value, ttl) :: entries, s => constructLoop now entries (set s now key value ttl)

/-- The constructor `KVStorage(entries, clock)`, run while the clock reads `now`. -/
def construct (entries : List (Key × Value × Nat)) (now : TimePoint) : KVStorage :=
  constructLoop now entries empty

/-- What one round of the loop of `getManySorted` appends for `cur_key`: the pair of the key and
its value if the entry is live at `now`, nothing otherwise. -/
def liveAt (s : KVStorage) (now : TimePoint) (cur_key : Key) : Option (Key × Value) :=
  match find s.map_ cur_key with
  | none => none
  | some entry => if now < entry.expiration_time then some (cur_key, entry.value) else none

/-- The order in which the reference of `getManySorted` sorts entries: by key, ascending. -/
def keyLE (a b : Key × ValueEntry) : Prop := a.1 ≤ b.1

instance : DecidableRel keyLE := fun a b => by
  unfold keyLE; infer_instance

instance : IsTotal (Key × ValueEntry) keyLE := ⟨fun a b => le_total a.1 b.1⟩

instance : IsTrans (Key × ValueEntry) keyLE := ⟨fun _ _ _ h₁ h₂ => le_trans h₁ h₂⟩

/-- The reference result of `getManySorted`, following the specification: take the entries that
are live at `now`, sort them by key in ascending order, drop those whose key is less than
`start`, and keep the first `n` pairs (key, value). -/
def getManySortedSpec (s : KVStorage) (now : TimePoint) (start : Key) (n : Nat) :
    List (Key × Value) :=
  ((((s.map_.filter (fun p => decide (now < p.2.expiration_time))).insertionSort keyLE).filter
    (fun p => decide (¬ p.1 < start))).take n).map (fun p => (p.1, p.2.value))

/-- The reference of the constructor, following the specification: `set` applied to the empty
store for each triple, in list order. -/
def constructSpec (entries : List (Key × Value × Nat)) (now : TimePoint) : KVStorage :=
  entries.foldl (fun s t => set s now t.1 t.2.1 t.2.2) empty

/-- The last triple of `entries` whose key is `k`, if there is one. -/
def lastTriple (entries : List (Key × Value × Nat)) (k : Key) : Option (Key × Value × Nat) :=
  (entries.filter (fun t => decide (t.1 = k))).getLast?

/-- The test that the loop of `removeOneExpiredEntry` makes on an entry: `now` is at or past its
expiration, and the expiration is not the never sentinel `TimePoint::max()`. -/
def isExpired (now : TimePoint) (e : ValueEntry) : Bool :=
  decide (now ≥ e.expiration_time ∧ e.expiration_time ≠ TimePoint.max)

/-- The expired entries of the store at `now`, in iteration order. -/
def expiredEntries (s : KVStorage) (now : TimePoint) : List (Key × ValueEntry) :=
  s.map_.filter (fun p => isExpired now p.2)

/-- A caller that runs `removeOneExpiredEntry()` `n` times in a row while the clock reads `now`:
the returned optionals in call order, and the store after the last call. -/
def removeOneExpiredEntryTimes (now : TimePoint) :
    Nat → KVStorage → List (Option (Key × Value)) × KVStorage
  | 0, s => ([], s)
  | n + 1, s =>
    ((removeOneExpiredEntry s now).1 ::
        (removeOneExpiredEntryTimes now n (removeOneExpiredEntry s now).2).1,
      (removeOneExpiredEntryTimes now n (removeOneExpiredEntry s now).2).2)

/-- A call of `get(key)` as a step on the object: the returned optional and the store after the
call.  `get` is a `const` member function; its body uses `map_` through `find` only and assigns
nothing, so the store after the call is the store before it. -/
def getCall (s : KVStorage) (now : TimePoint) (key : Key) : Option Value × KVStorage :=
  (get s now key, s)

/-- A call of `getManySorted(key, count)` as a step on the object.  It is a `const` member
function; its body iterates over `map_` and looks entries up with `at`, which never inserts, so
the store after the call is the store before it. -/
def getManySortedCall (s : KVStorage) (now : TimePoint) (key : Key) (count : Nat) :
    Option (List (Key × Value)) × KVStorage :=
  (getManySorted s now key count, s)

end KVStorage

namespace KVStorage

/-! ## The map: `find`, `assign`, `erase` -/

theorem find_assign (m : List (Key × ValueEntry)) (k k' : Key) (e : ValueEntry) :
    find (assign m k e) k' = if k = k' then some e else find m k' := by
  induction m with
  | nil => simp [assign, find]
  | cons p rest ih =>
    obtain ⟨k0, e0⟩ := p
    by_cases h : k0 = k
    · subst h
      by_cases h' : k0 = k' <;> simp [assign, find, h']
    · simp only [assign, if_neg h, find, ih]
      by_cases h' : k0 = k'
      · subst h'
        simp [Ne.symm h]
      · simp [h']

theorem find_eq_none_iff (m : List (Key × ValueEntry)) (k : Key) :
    find m k = none ↔ k ∉ m.map Prod.fst := by
  induction m with
  | nil => simp [find]
  | cons p rest ih =>
    obtain ⟨k0, e0⟩ := p
    by_cases h : k0 = k
    · subst h
      simp only [find, if_true, List.map_cons, List.mem_cons]
      constructor
      · intro h'
        cases h'
      · intro h'
        exact absurd (Or.inl trivial) h'
    · simp only [find, if_neg h, ih, List.map_cons, List.mem_cons, not_or]
      constructor
      · intro h'
        exact ⟨Ne.symm h, h'⟩
      · intro h'
        exact h'.2

theorem mem_of_find (m : List (Key × ValueEntry)) (k : Key) (e : ValueEntry)
    (h : find m k = some e) : (k, e) ∈ m := by
  induction m with
  | nil => simp [find] at h
  | cons p rest ih =>
    obtain ⟨k0, e0⟩ := p
    by_cases hk : k0 = k
    · subst hk
      simp [find] at h
      simp [h]
    · simp only [find, if_neg hk] at h
      exact List.mem_cons_of_mem _ (ih h)

theorem find_of_mem (m : List (Key × ValueEntry)) (k : Key) (e : ValueEntry)
    (hnd : (m.map Prod.fst).Nodup) (h : (k, e) ∈ m) : find m k = some e := by
  induction m with
  | nil => simp at h
  | cons p rest ih =>
    obtain ⟨k0, e0⟩ := p
    simp only [List.map_cons, List.nodup_cons] at hnd
    rcases List.mem_cons.1 h with heq | hmem
    · cases heq
      simp [find]
    · have hk : k0 ≠ k := by
        rintro rfl
        exact hnd.1 (List.mem_map_of_mem Prod.fst hmem)
      simp only [find, if_neg hk]
      exact ih hnd.2 hmem

theorem erase_fst_pos_iff (m : List (Key × ValueEntry)) (k : Key) :
    0 < (erase m k).1 ↔ (find m k).isSome = true := by
  induction m with
  | nil => simp [erase, find]
  | cons p rest ih =>
    obtain ⟨k0, e0⟩ := p
    by_cases h : k0 = k
    · simp [erase, find, h]
    · simp [erase, find, h, ih]

theorem erase_keys_sublist (m : List (Key × ValueEntry)) (k : Key) :
    ((erase m k).2.map Prod.fst).Sublist (m.map Prod.fst) := by
  induction m with
  | nil => simp [erase]
  | cons p rest ih =>
    obtain ⟨k0, e0⟩ := p
    by_cases h : k0 = k
    · simp [erase, h]
    · simp [erase, h, ih]

theorem find_erase_self (m : List (Key × ValueEntry)) (k : Key)
    (hnd : (m.map Prod.fst).Nodup) : find (erase m k).2 k = none := by
  induction m with
  | nil => simp [erase, find]
  | cons p rest ih =>
    obtain ⟨k0, e0⟩ := p
    simp only [List.map_cons, List.nodup_cons] at hnd
    by_cases h : k0 = k
    · subst h
      simp only [erase, if_true]
      exact (find_eq_none_iff rest k0).2 hnd.1
    · simp only [erase, if_neg h, find]
      exact ih hnd.2

/-! ## `set`, `get`, `remove` -/

theorem find_set (s : KVStorage) (now : TimePoint) (k k' : Key) (v : Value) (ttl : Nat) :
    find (set s now k v ttl).map_ k' =
      if k = k' then some ⟨v, setExpiration now ttl⟩ else find s.map_ k' := by
  simp [set, find_assign]

theorem get_set_self (s : KVStorage) (now T : TimePoint) (k : Key) (v : Value) (ttl : Nat) :
    get (set s now k v ttl) T k = if T ≥ setExpiration now ttl then none else some v := by
  simp [get, find_set]

theorem wrapInt64_of_inRange (x : Int) (h : TimePoint.InRange x) : wrapInt64 x = x := by
  unfold TimePoint.InRange TimePoint.min TimePoint.max TimePoint at h
  unfold wrapInt64
  omega

theorem setExpiration_of_fits (now : TimePoint) (ttl : Nat) (hpos : 0 < ttl)
    (hmin : TimePoint.min ≤ now) (hfit : now + (ttl : Int) * ticksPerSecond ≤ TimePoint.max) :
    setExpiration now ttl = now + (ttl : Int) * ticksPerSecond := by
  unfold setExpiration
  rw [if_neg (Nat.pos_iff_ne_zero.1 hpos)]
  apply wrapInt64_of_inRange
  refine ⟨?_, hfit⟩
  have : (0 : Int) ≤ (ttl : Int) * ticksPerSecond := by
    unfold ticksPerSecond; positivity
  linarith


/-! ## Time to live: `set` followed by `get` -/

/-- C1, counterexample: with the clock five ticks before `TimePoint::max()`, `set(k, v, 1)`
adds one second to an instant that is less than one second before the largest time point; the
sum leaves the 64-bit range, the stored expiration is a negative tick count, and `get(k)` is
absent at the very instant of the `set`, which lies in `[T0, T0 + 1 s)`. -/
theorem set_get_ttl_overflow_counterexample :
    TimePoint.InRange (TimePoint.max - 5) ∧
    TimePoint.max - 5 < (TimePoint.max - 5) + ((1 : Nat) : Int) * ticksPerSecond ∧
    setExpiration (TimePoint.max - 5) 1 = -9223372035854775814 ∧
    get (set empty (TimePoint.max - 5) "k".toList "v" 1) (TimePoint.max - 5) "k".toList
      = none := by
  decide

/-- C1, amended: for every store, key `k`, value `v`, ttl `t > 0` and clock instant `T0` such
that `T0 + t` seconds is not past `TimePoint::max()`: right after `set(k, v, t)` run at `T0`,
`get(k)` at time `T` returns `v` for every `T` with `T0 ≤ T < T0 + t` seconds and is absent for
every `T ≥ T0 + t` seconds. -/
theorem set_get_ttl (s : KVStorage) (k : Key) (v : Value) (t : Nat) (T0 T : TimePoint)
    (ht : 0 < t) (hT0 : TimePoint.InRange T0)
    (hfit : T0 + (t : Int) * ticksPerSecond ≤ TimePoint.max) :
    (T0 ≤ T → T < T0 + (t : Int) * ticksPerSecond → get (set s T0 k v t) T k = some v) ∧
    (T0 + (t : Int) * ticksPerSecond ≤ T → get (set s T0 k v t) T k = none) := by
  rw [get_set_self, setExpiration_of_fits T0 t ht hT0.1 hfit]
  constructor
  · intro _ hlt
    rw [if_neg (not_le.2 hlt)]
  · intro hge
    rw [if_pos hge]

theorem set_get_ttl_witness :
    (get (set empty 0 "temp".toList "data" 5) 4000000000 "temp".toList = some "data") ∧
    (get (set empty 0 "temp".toList "data" 5) 6000000000 "temp".toList = none) :=
  ⟨(set_get_ttl empty "temp".toList "data" 5 0 4000000000 (by decide) (by decide)
      (by decide)).1 (by decide) (by decide),
   (set_get_ttl empty "temp".toList "data" 5 0 6000000000 (by decide) (by decide)
      (by decide)).2 (by decide)⟩

/-- An entry written with ttl 0 is returned by `get` at every instant before
`TimePoint::max()`. -/
theorem get_set_zero_ttl (s : KVStorage) (k : Key) (v : Value) (T0 T : TimePoint)
    (hT : T < TimePoint.max) : get (set s T0 k v 0) T k = some v := by
  rw [get_set_self]
  simp only [setExpiration, if_true]
  rw [if_neg (not_le.2 hT)]

/-- C2, the code at the failing input: `set("x", "y", 0)` on the empty store with the clock at 0,
then `get("x")` with the clock at `TimePoint::max()` is absent, although the entry was written
never to expire. -/
theorem get_zero_ttl_at_max :
    TimePoint.InRange 0 ∧ TimePoint.InRange TimePoint.max ∧ (0 : TimePoint) ≤ TimePoint.max ∧
    find (set empty 0 "x".toList "y" 0).map_ "x".toList = some ⟨"y", TimePoint.max⟩ ∧
    get (set empty 0 "x".toList "y" 0) TimePoint.max "x".toList = none := by
  decide

/-- C3: overwrite law.  After `set(k, v₁, t₁)` at `T₁` and then `set(k, v₂, t₂)` at `T₂`, the
entry of `k` is the value `v₂` with the expiration computed from `t₂` at `T₂`, it is the entry
that `set(k, v₂, t₂)` alone produces, and at every instant `get(k)` returns `v₂` exactly while
that expiration is in the future; nothing depends on `v₁`, `t₁` or `T₁`. -/
theorem set_overwrite (s : KVStorage) (k : Key) (v₁ v₂ : Value) (t₁ t₂ : Nat)
    (T₁ T₂ : TimePoint) :
    find (set (set s T₁ k v₁ t₁) T₂ k v₂ t₂).map_ k = some ⟨v₂, setExpiration T₂ t₂⟩ ∧
    find (set (set s T₁ k v₁ t₁) T₂ k v₂ t₂).map_ k = find (set s T₂ k v₂ t₂).map_ k ∧
    (∀ T, get (set (set s T₁ k v₁ t₁) T₂ k v₂ t₂) T k = get (set s T₂ k v₂ t₂) T k) ∧
    (∀ T, get (set (set s T₁ k v₁ t₁) T₂ k v₂ t₂) T k =
      if T < setExpiration T₂ t₂ then some v₂ else none) := by
  refine ⟨by simp [find_set], by simp [find_set], fun T => by simp [get_set_self], fun T => ?_⟩
  rw [get_set_self]
  by_cases h : T < setExpiration T₂ t₂
  · rw [if_pos h, if_neg (not_le.2 h)]
  · rw [if_neg h, if_pos (not_lt.1 h)]

/-- C4: `remove(k)` returns true exactly when the store held an entry for `k` before the call
(the test does not look at the clock, so a live and an expired entry count alike), and after the
call `get(k)` is absent at every instant. -/
theorem remove_spec (s : KVStorage) (k : Key) (h : s.WF) :
    ((remove s k).1 = true ↔ (find s.map_ k).isSome = true) ∧
    ∀ T, get (remove s k).2 T k = none := by
  constructor
  · simp only [remove, decide_eq_true_eq, gt_iff_lt]
    exact erase_fst_pos_iff s.map_ k
  · intro T
    simp only [remove, get, find_erase_self s.map_ k h]

theorem remove_spec_witness :
    (construct [("a".toList, "1", 5), ("b".toList, "2", 100)] 0).WF ∧
    ((remove (construct [("a".toList, "1", 5), ("b".toList, "2", 100)] 0) "a".toList).1 = true ↔
      (find (construct [("a".toList, "1", 5), ("b".toList, "2", 100)] 0).map_
        "a".toList).isSome = true) ∧
    ∀ T, get (remove (construct [("a".toList, "1", 5), ("b".toList, "2", 100)] 0)
      "a".toList).2 T "a".toList = none :=
  ⟨by decide, remove_spec _ _ (by decide)⟩

/-- C5: `get(k)` returns `v` if and only if the store holds an entry `(v, expiration)` for `k`
with `now` strictly before `expiration`; it is absent when `k` has no entry, and when `k` has an
entry with `now ≥ expiration`. -/
theorem get_spec (s : KVStorage) (now : TimePoint) (k : Key) :
    (∀ v, get s now k = some v ↔ ∃ exp, find s.map_ k = some ⟨v, exp⟩ ∧ now < exp) ∧
    (find s.map_ k = none → get s now k = none) ∧
    (∀ e, find s.map_ k = some e → now ≥ e.expiration_time → get s now k = none) := by
  refine ⟨fun v => ?_, fun h => by simp [get, h], fun e h hge => by simp [get, h, hge]⟩
  unfold get
  cases hf : find s.map_ k with
  | none => simp
  | some e =>
    obtain ⟨v', exp'⟩ := e
    by_cases hlt : now < exp'
    · simp only [ge_iff_le, if_neg (not_le.2 hlt), Option.some.injEq, ValueEntry.mk.injEq]
      constructor
      · rintro rfl
        exact ⟨exp', ⟨rfl, rfl⟩, hlt⟩
      · rintro ⟨exp, ⟨hv, rfl⟩, _⟩
        exact hv
    · simp only [ge_iff_le, if_pos (not_lt.1 hlt), Option.some.injEq, ValueEntry.mk.injEq]
      constructor
      · intro h
        cases h
      · rintro ⟨exp, ⟨_, rfl⟩, h⟩
        exact absurd h hlt


/-! ## `getManySorted` -/

theorem getManySortedLoop_eq (s : KVStorage) (now : TimePoint) (count : Nat) (keys : List Key)
    (result : List (Key × Value)) (hkeys : ∀ k ∈ keys, (find s.map_ k).isSome = true) :
    getManySortedLoop s now count keys result =
      some (result ++ (keys.filterMap (liveAt s now)).take (count - result.length)) := by
  induction keys generalizing result with
  | nil => simp [getManySortedLoop]
  | cons k it ih =>
    have hit : ∀ k' ∈ it, (find s.map_ k').isSome = true :=
      fun k' hk' => hkeys k' (List.mem_cons_of_mem _ hk')
    have hk := hkeys k (List.mem_cons_self _ _)
    obtain ⟨e, he⟩ := Option.isSome_iff_exists.1 hk
    unfold getManySortedLoop
    by_cases hlen : result.length < count
    · rw [if_pos hlen]
      simp only [he]
      by_cases hlive : now < e.expiration_time
      · rw [if_pos hlive, ih _ hit]
        have hl : liveAt s now k = some (k, e.value) := by simp [liveAt, he, hlive]
        have hc : count - result.length = (count - (result.length + 1)) + 1 := by omega
        rw [List.filterMap_cons_some hl, hc, List.take_succ_cons]
        simp
      · rw [if_neg hlive, ih _ hit]
        have hl : liveAt s now k = none := by simp [liveAt, he, hlive]
        rw [List.filterMap_cons_none hl]
    · rw [if_neg hlen]
      have hc : count - result.length = 0 := by omega
      simp [hc]

theorem insertionSort_keys (m : List (Key × ValueEntry)) :
    (m.map Prod.fst).insertionSort (fun a b => a ≤ b) = (m.insertionSort keyLE).map Prod.fst := by
  have hp : ((m.map Prod.fst).insertionSort (fun a b => a ≤ b)).Perm
      ((m.insertionSort keyLE).map Prod.fst) :=
    (List.perm_insertionSort _ _).trans ((List.perm_insertionSort keyLE m).map _).symm
  have h₁ : ((m.map Prod.fst).insertionSort (fun a b => a ≤ b)).Sorted (fun a b => a ≤ b) :=
    List.sorted_insertionSort _ _
  have h₂ : ((m.insertionSort keyLE).map Prod.fst).Sorted (fun a b => a ≤ b) :=
    List.pairwise_map.2 (List.sorted_insertionSort keyLE m)
  exact List.eq_of_perm_of_sorted hp h₁ h₂

theorem dropWhile_eq_filter_of_sorted (l : List (Key × ValueEntry)) (start : Key)
    (h : l.Sorted keyLE) :
    l.dropWhile (fun p => decide (p.1 < start)) = l.filter (fun p => decide (¬ p.1 < start)) := by
  induction l with
  | nil => simp
  | cons a l ih =>
    have hs := List.sorted_cons.1 h
    by_cases ha : a.1 < start
    · simp only [List.dropWhile_cons, ha, decide_True, if_true, List.filter_cons, not_true_eq_false,
        decide_False, Bool.false_eq_true, if_false]
      exact ih hs.2
    · have hall : ∀ b ∈ l, decide (¬ b.1 < start) = true := by
        intro b hb
        have hab : a.1 ≤ b.1 := hs.1 b hb
        simp only [decide_eq_true_eq, not_lt]
        exact le_trans (not_lt.1 ha) hab
      simp only [List.dropWhile_cons, ha, decide_False, Bool.false_eq_true, if_false,
        List.filter_cons, not_false_eq_true, decide_True, if_true]
      rw [List.filter_eq_self.2 hall]

theorem filterMap_liveAt_keys (s : KVStorage) (now : TimePoint) (l : List (Key × ValueEntry))
    (h : ∀ p ∈ l, find s.map_ p.1 = some p.2) :
    (l.map Prod.fst).filterMap (liveAt s now) =
      (l.filter (fun p => decide (now < p.2.expiration_time))).map (fun p => (p.1, p.2.value)) := by
  induction l with
  | nil => simp
  | cons a l ih =>
    have ha := h a (List.mem_cons_self _ _)
    have hl := ih (fun p hp => h p (List.mem_cons_of_mem _ hp))
    by_cases hlive : now < a.2.expiration_time
    · have : liveAt s now a.1 = some (a.1, a.2.value) := by simp [liveAt, ha, hlive]
      rw [List.map_cons, List.filterMap_cons_some this, hl]
      simp [List.filter_cons, hlive]
    · have : liveAt s now a.1 = none := by simp [liveAt, ha, hlive]
      rw [List.map_cons, List.filterMap_cons_none this, hl]
      simp [List.filter_cons, hlive]

theorem sorted_lt_of_nodup_keys (l : List (Key × ValueEntry)) (hs : l.Sorted keyLE)
    (hnd : (l.map Prod.fst).Nodup) : l.Sorted (fun a b => a.1 < b.1) := by
  have hne : l.Pairwise (fun a b => a.1 ≠ b.1) := List.pairwise_map.1 hnd
  exact (List.Pairwise.and hs hne).imp (fun h => lt_of_le_of_ne h.1 h.2)

theorem eq_of_perm_of_sorted_lt (l₁ l₂ : List (Key × ValueEntry)) (hp : l₁.Perm l₂)
    (h₁ : l₁.Sorted (fun a b => a.1 < b.1)) (h₂ : l₂.Sorted (fun a b => a.1 < b.1)) :
    l₁ = l₂ := by
  haveI : IsAntisymm (Key × ValueEntry) (fun a b => a.1 < b.1) :=
    ⟨fun _ _ hab hba => absurd hba (lt_asymm hab)⟩
  exact List.eq_of_perm_of_sorted hp h₁ h₂

theorem filter_insertionSort_comm (m : List (Key × ValueEntry)) (p : Key × ValueEntry → Bool)
    (hnd : (m.map Prod.fst).Nodup) :
    (m.insertionSort keyLE).filter p = (m.filter p).insertionSort keyLE := by
  apply eq_of_perm_of_sorted_lt
  · exact ((List.perm_insertionSort keyLE m).filter p).trans
      (List.perm_insertionSort keyLE (m.filter p)).symm
  · have hs : (m.insertionSort keyLE).Sorted (fun a b => a.1 < b.1) :=
      sorted_lt_of_nodup_keys _ (List.sorted_insertionSort keyLE m)
        ((((List.perm_insertionSort keyLE m).map Prod.fst).nodup_iff).2 hnd)
    exact hs.sublist (List.filter_sublist _)
  · apply sorted_lt_of_nodup_keys _ (List.sorted_insertionSort keyLE _)
    apply (((List.perm_insertionSort keyLE (m.filter p)).map Prod.fst).nodup_iff).2
    exact hnd.sublist ((List.filter_sublist m).map Prod.fst)

/-- The result of `getManySorted` in closed form: the call never fails, and it returns the first
`count` live pairs among the entries with key not less than `key`, in key order. -/
theorem getManySorted_eq (s : KVStorage) (now : TimePoint) (key : Key) (count : Nat)
    (h : s.WF) :
    getManySorted s now key count =
      some ((((s.map_.insertionSort keyLE).filter (fun p => decide (¬ p.1 < key))).filter
        (fun p => decide (now < p.2.expiration_time))).map
          (fun p => (p.1, p.2.value)) |>.take count) := by
  have hsub : ∀ p ∈ (s.map_.insertionSort keyLE).filter (fun p => decide (¬ p.1 < key)),
      find s.map_ p.1 = some p.2 := by
    intro p hp
    have hp' : p ∈ s.map_ :=
      (List.perm_insertionSort keyLE s.map_).subset (List.mem_of_mem_filter hp)
    exact find_of_mem s.map_ p.1 p.2 h hp'
  have hlb : lower_bound ((s.map_.map Prod.fst).insertionSort (fun a b => a ≤ b)) key =
      ((s.map_.insertionSort keyLE).filter (fun p => decide (¬ p.1 < key))).map Prod.fst := by
    unfold lower_bound
    rw [insertionSort_keys, List.dropWhile_map,
      ← dropWhile_eq_filter_of_sorted _ key (List.sorted_insertionSort keyLE s.map_)]
    rfl
  unfold getManySorted
  by_cases hc : count = 0
  · simp [hc]
  · rw [if_neg hc, hlb, getManySortedLoop_eq, filterMap_liveAt_keys s now _ hsub]
    · simp
    · intro k hk
      obtain ⟨p, hp, rfl⟩ := List.mem_map.1 hk
      rw [hsub p hp]
      rfl


/-- C6: `getManySorted(start, n)` returns, and its result is the reference result: the entries
live at `now`, sorted by key in ascending order, without those whose key is less than `start`,
cut to the first `n` pairs (key, value); expired entries take none of the `n` places. -/
theorem getManySorted_refines_spec (s : KVStorage) (now : TimePoint) (start : Key) (n : Nat)
    (h : s.WF) : getManySorted s now start n = some (getManySortedSpec s now start n) := by
  rw [getManySorted_eq s now start n h]
  unfold getManySortedSpec
  rw [← filter_insertionSort_comm s.map_ _ h, List.map_take, List.filter_filter,
    List.filter_filter]
  simp only [Bool.and_comm]

theorem getManySorted_refines_spec_witness :
    (construct [("a".toList, "1", 50), ("b".toList, "2", 50), ("c".toList, "3", 1),
      ("d".toList, "4", 50)] 0).WF ∧
    getManySorted (construct [("a".toList, "1", 50), ("b".toList, "2", 50),
      ("c".toList, "3", 1), ("d".toList, "4", 50)] 0) 2000000000 "b".toList 2 =
    some (getManySortedSpec (construct [("a".toList, "1", 50), ("b".toList, "2", 50),
      ("c".toList, "3", 1), ("d".toList, "4", 50)] 0) 2000000000 "b".toList 2) :=
  ⟨by decide, getManySorted_refines_spec _ 2000000000 "b".toList 2 (by decide)⟩

/-- C7: `getManySorted(start, n)` returns a sequence of length at most `n`, in which every key
is at least `start`, the keys are strictly increasing, and every returned pair is the key and
value of an entry of the store whose expiration is strictly after `now`. -/
theorem getManySorted_result (s : KVStorage) (now : TimePoint) (start : Key) (n : Nat)
    (h : s.WF) :
    ∃ r, getManySorted s now start n = some r ∧ r.length ≤ n ∧ (∀ p ∈ r, start ≤ p.1) ∧
      (r.map Prod.fst).Sorted (fun a b => a < b) ∧
      ∀ p ∈ r, ∃ exp, find s.map_ p.1 = some ⟨p.2, exp⟩ ∧ now < exp := by
  refine ⟨_, getManySorted_eq s now start n h, List.length_take_le _ _, ?_, ?_, ?_⟩
  · intro p hp
    obtain ⟨q, hq, rfl⟩ := List.mem_map.1 (List.mem_of_mem_take hp)
    have hq' := (List.mem_filter.1 (List.mem_filter.1 hq).1).2
    simpa using hq'
  · have hs : (s.map_.insertionSort keyLE).Sorted (fun a b => a.1 < b.1) :=
      sorted_lt_of_nodup_keys _ (List.sorted_insertionSort keyLE s.map_)
        ((((List.perm_insertionSort keyLE s.map_).map Prod.fst).nodup_iff).2 h)
    have hs' : (((s.map_.insertionSort keyLE).filter (fun p => decide (¬ p.1 < start))).filter
        (fun p => decide (now < p.2.expiration_time))).Sorted (fun a b => a.1 < b.1) :=
      (hs.sublist (List.filter_sublist _)).sublist (List.filter_sublist _)
    have hm : (((((s.map_.insertionSort keyLE).filter (fun p => decide (¬ p.1 < start))).filter
        (fun p => decide (now < p.2.expiration_time))).map
          (fun p => (p.1, p.2.value))).map Prod.fst).Sorted (fun a b => a < b) := by
      rw [List.map_map]
      exact List.pairwise_map.2 hs'
    exact hm.sublist ((List.take_sublist n _).map Prod.fst)
  · intro p hp
    obtain ⟨q, hq, rfl⟩ := List.mem_map.1 (List.mem_of_mem_take hp)
    have hlive := (List.mem_filter.1 hq).2
    have hmem : q ∈ s.map_ := (List.perm_insertionSort keyLE s.map_).subset
      (List.mem_of_mem_filter (List.mem_of_mem_filter hq))
    refine ⟨q.2.expiration_time, find_of_mem s.map_ q.1 q.2 h hmem, ?_⟩
    simpa using hlive

theorem getManySorted_result_witness :
    (construct [("b".toList, "2", 50), ("a".toList, "1", 50), ("d".toList, "4", 50)] 0).WF ∧
    ∃ r, getManySorted (construct [("b".toList, "2", 50), ("a".toList, "1", 50),
        ("d".toList, "4", 50)] 0) 1000000000 "b".toList 5 = some r ∧
      r.length ≤ 5 ∧ (∀ p ∈ r, "b".toList ≤ p.1) ∧
      (r.map Prod.fst).Sorted (fun a b => a < b) ∧
      ∀ p ∈ r, ∃ exp, find (construct [("b".toList, "2", 50), ("a".toList, "1", 50),
        ("d".toList, "4", 50)] 0).map_ p.1 = some ⟨p.2, exp⟩ ∧ 1000000000 < exp :=
  ⟨by decide, getManySorted_result _ 1000000000 "b".toList 5 (by decide)⟩

/-- C8: `getManySorted(start, 0)` returns the empty sequence, for every store, start key and
clock instant. -/
theorem getManySorted_zero (s : KVStorage) (now : TimePoint) (start : Key) :
    getManySorted s now start 0 = some [] := by
  simp [getManySorted]


/-! ## The constructor -/

theorem keys_assign (m : List (Key × ValueEntry)) (k : Key) (e : ValueEntry) :
    (assign m k e).map Prod.fst =
      if k ∈ m.map Prod.fst then m.map Prod.fst else m.map Prod.fst ++ [k] := by
  induction m with
  | nil => simp [assign]
  | cons p rest ih =>
    obtain ⟨k0, e0⟩ := p
    by_cases h : k0 = k
    · subst h
      simp [assign]
    · have h' : ¬ k = k0 := fun hk => h hk.symm
      simp only [assign, if_neg h, List.map_cons, ih, List.mem_cons, h', false_or]
      by_cases hm : k ∈ rest.map Prod.fst
      · rw [if_pos hm, if_pos hm]
      · rw [if_neg hm, if_neg hm]
        rfl

theorem nodup_keys_assign (m : List (Key × ValueEntry)) (k : Key) (e : ValueEntry)
    (h : (m.map Prod.fst).Nodup) : ((assign m k e).map Prod.fst).Nodup := by
  rw [keys_assign]
  by_cases hm : k ∈ m.map Prod.fst
  · rw [if_pos hm]
    exact h
  · rw [if_neg hm]
    exact List.Nodup.append h (List.nodup_singleton k)
      (by
        intro a ha hk
        rw [List.mem_singleton] at hk
        exact hm (hk ▸ ha))

theorem set_WF (s : KVStorage) (now : TimePoint) (k : Key) (v : Value) (ttl : Nat) (h : s.WF) :
    (set s now k v ttl).WF :=
  nodup_keys_assign s.map_ k _ h

theorem constructLoop_eq_foldl (now : TimePoint) (entries : List (Key × Value × Nat))
    (s : KVStorage) :
    constructLoop now entries s = entries.foldl (fun s t => set s now t.1 t.2.1 t.2.2) s := by
  induction entries generalizing s with
  | nil => rfl
  | cons t rest ih =>
    obtain ⟨key, value, ttl⟩ := t
    simp only [constructLoop, List.foldl_cons]
    exact ih _

theorem constructLoop_WF (now : TimePoint) (entries : List (Key × Value × Nat))
    (s : KVStorage) (h : s.WF) : (constructLoop now entries s).WF := by
  induction entries generalizing s with
  | nil => exact h
  | cons t rest ih =>
    obtain ⟨key, value, ttl⟩ := t
    exact ih _ (set_WF s now key value ttl h)

theorem lastTriple_cons (t : Key × Value × Nat) (rest : List (Key × Value × Nat)) (k : Key) :
    lastTriple (t :: rest) k =
      match lastTriple rest k with
      | some u => some u
      | none => if t.1 = k then some t else none := by
  unfold lastTriple
  by_cases h : t.1 = k
  · simp only [List.filter_cons, h, decide_True, if_true, List.getLast?_cons]
    cases List.getLast? (List.filter (fun t => decide (t.1 = k)) rest) <;> rfl
  · simp only [List.filter_cons, h, decide_False, Bool.false_eq_true, if_false]
    cases List.getLast? (List.filter (fun t => decide (t.1 = k)) rest) <;> rfl

theorem find_constructLoop (now : TimePoint) (entries : List (Key × Value × Nat))
    (s : KVStorage) (k : Key) :
    find (constructLoop now entries s).map_ k =
      match lastTriple entries k with
      | some t => some ⟨t.2.1, setExpiration now t.2.2⟩
      | none => find s.map_ k := by
  induction entries generalizing s with
  | nil => simp [constructLoop, lastTriple]
  | cons t rest ih =>
    obtain ⟨key, value, ttl⟩ := t
    rw [lastTriple_cons]
    simp only [constructLoop]
    rw [ih]
    cases lastTriple rest k with
    | some u => rfl
    | none =>
      simp only [find_set]
      by_cases h : key = k
      · rw [if_pos h, if_pos h]
      · rw [if_neg h, if_neg h]

theorem lastTriple_eq_none (entries : List (Key × Value × Nat)) (k : Key)
    (h : k ∉ entries.map (fun t => t.1)) : lastTriple entries k = none := by
  unfold lastTriple
  rw [List.getLast?_eq_none_iff, List.filter_eq_nil_iff]
  intro t ht
  simp only [decide_eq_true_eq]
  rintro rfl
  exact h (List.mem_map_of_mem _ ht)

/-- C9: the constructor run at `now` yields the store obtained from the empty store by `set` for
each triple in list order.  So the entry of every key is the one written by the last triple with
that key (value, and expiration computed from its ttl at `now`), a key that occurs in no triple
has no entry, the empty list gives the empty store, and the result is a well-formed store
whatever keys repeat. -/
theorem construct_spec (entries : List (Key × Value × Nat)) (now : TimePoint) :
    construct entries now = constructSpec entries now ∧
    (∀ k, find (construct entries now).map_ k =
      (lastTriple entries k).map (fun t => ⟨t.2.1, setExpiration now t.2.2⟩)) ∧
    (∀ k, k ∉ entries.map (fun t => t.1) → find (construct entries now).map_ k = none) ∧
    construct [] now = empty ∧
    (construct entries now).WF := by
  have hfind : ∀ k, find (construct entries now).map_ k =
      (lastTriple entries k).map (fun t => ⟨t.2.1, setExpiration now t.2.2⟩) := by
    intro k
    unfold construct
    rw [find_constructLoop]
    cases lastTriple entries k <;> rfl
  refine ⟨constructLoop_eq_foldl now entries empty, hfind, ?_, rfl, ?_⟩
  · intro k hk
    rw [hfind, lastTriple_eq_none entries k hk]
    rfl
  · exact constructLoop_WF now entries empty List.nodup_nil

/-! ## `removeOneExpiredEntry` -/

theorem removeOneExpiredEntryLoop_some (now : TimePoint) (m : List (Key × ValueEntry))
    (k : Key) (v : Value) (hnd : (m.map Prod.fst).Nodup)
    (hr : (removeOneExpiredEntryLoop now m).1 = some (k, v)) :
    ∃ exp, find m k = some ⟨v, exp⟩ ∧ now ≥ exp ∧ exp ≠ TimePoint.max ∧
      find (removeOneExpiredEntryLoop now m).2 k = none := by
  induction m with
  | nil => simp [removeOneExpiredEntryLoop] at hr
  | cons p rest ih =>
    obtain ⟨k0, e0⟩ := p
    simp only [List.map_cons, List.nodup_cons] at hnd
    by_cases hc : now ≥ e0.expiration_time ∧ e0.expiration_time ≠ TimePoint.max
    · simp only [removeOneExpiredEntryLoop, if_pos hc, Option.some.injEq, Prod.mk.injEq] at hr ⊢
      obtain ⟨rfl, rfl⟩ := hr
      refine ⟨e0.expiration_time, by simp [find], hc.1, hc.2, ?_⟩
      exact (find_eq_none_iff rest k0).2 hnd.1
    · simp only [removeOneExpiredEntryLoop, if_neg hc] at hr ⊢
      obtain ⟨exp, hf, hge, hne, hnone⟩ := ih hnd.2 hr
      have hk : k0 ≠ k := by
        rintro rfl
        exact hnd.1 (List.mem_map_of_mem Prod.fst (mem_of_find rest k0 _ hf))
      refine ⟨exp, ?_, hge, hne, ?_⟩
      · simp only [find, if_neg hk]
        exact hf
      · simp only [find, if_neg hk]
        exact hnone

/-- C10: if `removeOneExpiredEntry()` returns `(k, v)`, then right before the call the store
held the entry `(v, expiration)` for `k` with `now ≥ expiration`, so `get(k)` was absent already;
and after the call `get(k)` is absent at every instant. -/
theorem removeOneExpiredEntry_returns_expired (s : KVStorage) (now : TimePoint) (k : Key)
    (v : Value) (h : s.WF) (hr : (removeOneExpiredEntry s now).1 = some (k, v)) :
    (∃ exp, find s.map_ k = some ⟨v, exp⟩ ∧ now ≥ exp) ∧
    get s now k = none ∧
    ∀ T, get (removeOneExpiredEntry s now).2 T k = none := by
  obtain ⟨exp, hf, hge, _, hnone⟩ := removeOneExpiredEntryLoop_some now s.map_ k v h hr
  refine ⟨⟨exp, hf, hge⟩, ?_, fun T => ?_⟩
  · simp [get, hf, hge]
  · simp only [removeOneExpiredEntry, get, hnone]

theorem removeOneExpiredEntry_returns_expired_witness :
    (construct [("a".toList, "1", 5), ("b".toList, "2", 100)] 0).WF ∧
    (removeOneExpiredEntry (construct [("a".toList, "1", 5), ("b".toList, "2", 100)] 0)
      6000000000).1 = some ("a".toList, "1") ∧
    (∃ exp, find (construct [("a".toList, "1", 5), ("b".toList, "2", 100)] 0).map_ "a".toList
      = some ⟨"1", exp⟩ ∧ 6000000000 ≥ exp) ∧
    get (construct [("a".toList, "1", 5), ("b".toList, "2", 100)] 0) 6000000000 "a".toList
      = none ∧
    ∀ T, get (removeOneExpiredEntry (construct [("a".toList, "1", 5), ("b".toList, "2", 100)] 0)
      6000000000).2 T "a".toList = none :=
  ⟨by decide, by decide,
    removeOneExpiredEntry_returns_expired _ 6000000000 "a".toList "1" (by decide) (by decide)⟩

/-! ## `removeOneExpiredEntry`: what is returned and what is left -/

theorem isExpired_iff (now : TimePoint) (e : ValueEntry) :
    isExpired now e = true ↔ now ≥ e.expiration_time ∧ e.expiration_time ≠ TimePoint.max := by
  simp [isExpired]

theorem removeOneExpiredEntryLoop_fst (now : TimePoint) (m : List (Key × ValueEntry)) :
    (removeOneExpiredEntryLoop now m).1 =
      ((m.filter (fun p => isExpired now p.2)).head?).map (fun p => (p.1, p.2.value)) := by
  induction m with
  | nil => rfl
  | cons p rest ih =>
    obtain ⟨k0, e0⟩ := p
    by_cases hc : now ≥ e0.expiration_time ∧ e0.expiration_time ≠ TimePoint.max
    · have he : isExpired now e0 = true := (isExpired_iff now e0).2 hc
      simp only [removeOneExpiredEntryLoop, if_pos hc, List.filter_cons, he, if_true,
        List.head?_cons, Option.map_some']
    · have he : isExpired now e0 = false := by
        rw [← Bool.not_eq_true, isExpired_iff]
        exact hc
      simp only [removeOneExpiredEntryLoop, if_neg hc, List.filter_cons, he, Bool.false_eq_true,
        if_false]
      exact ih

theorem removeOneExpiredEntryLoop_snd_filter (now : TimePoint) (m : List (Key × ValueEntry)) :
    (removeOneExpiredEntryLoop now m).2.filter (fun p => isExpired now p.2) =
      (m.filter (fun p => isExpired now p.2)).tail := by
  induction m with
  | nil => rfl
  | cons p rest ih =>
    obtain ⟨k0, e0⟩ := p
    by_cases hc : now ≥ e0.expiration_time ∧ e0.expiration_time ≠ TimePoint.max
    · have he : isExpired now e0 = true := (isExpired_iff now e0).2 hc
      simp only [removeOneExpiredEntryLoop, if_pos hc, List.filter_cons, he, if_true,
        List.tail_cons]
    · have he : isExpired now e0 = false := by
        rw [← Bool.not_eq_true, isExpired_iff]
        exact hc
      simp only [removeOneExpiredEntryLoop, if_neg hc, List.filter_cons, he, Bool.false_eq_true,
        if_false]
      exact ih

theorem removeOneExpiredEntryLoop_filter_of_false (now : TimePoint)
    (m : List (Key × ValueEntry)) (q : Key × ValueEntry → Bool)
    (hq : ∀ p ∈ m, isExpired now p.2 = true → q p = false) :
    (removeOneExpiredEntryLoop now m).2.filter q = m.filter q := by
  induction m with
  | nil => rfl
  | cons p rest ih =>
    obtain ⟨k0, e0⟩ := p
    have hrest := ih (fun p hp => hq p (List.mem_cons_of_mem _ hp))
    by_cases hc : now ≥ e0.expiration_time ∧ e0.expiration_time ≠ TimePoint.max
    · have hq0 : q (k0, e0) = false :=
        hq (k0, e0) (List.mem_cons_self _ _) ((isExpired_iff now e0).2 hc)
      simp only [removeOneExpiredEntryLoop, if_pos hc, List.filter_cons, hq0, Bool.false_eq_true,
        if_false]
    · simp only [removeOneExpiredEntryLoop, if_neg hc, List.filter_cons, hrest]

theorem removeOneExpiredEntryLoop_none (now : TimePoint) (m : List (Key × ValueEntry))
    (h : (removeOneExpiredEntryLoop now m).1 = none) : (removeOneExpiredEntryLoop now m).2 = m := by
  induction m with
  | nil => rfl
  | cons p rest ih =>
    obtain ⟨k0, e0⟩ := p
    by_cases hc : now ≥ e0.expiration_time ∧ e0.expiration_time ≠ TimePoint.max
    · simp [removeOneExpiredEntryLoop, if_pos hc] at h
    · simp only [removeOneExpiredEntryLoop, if_neg hc] at h ⊢
      rw [ih h]

theorem removeOneExpiredEntryLoop_erase (now : TimePoint) (m : List (Key × ValueEntry))
    (k : Key) (v : Value) (hnd : (m.map Prod.fst).Nodup)
    (hr : (removeOneExpiredEntryLoop now m).1 = some (k, v)) :
    (removeOneExpiredEntryLoop now m).2 = (erase m k).2 := by
  induction m with
  | nil => simp [removeOneExpiredEntryLoop] at hr
  | cons p rest ih =>
    obtain ⟨k0, e0⟩ := p
    simp only [List.map_cons, List.nodup_cons] at hnd
    by_cases hc : now ≥ e0.expiration_time ∧ e0.expiration_time ≠ TimePoint.max
    · simp only [removeOneExpiredEntryLoop, if_pos hc, Option.some.injEq, Prod.mk.injEq] at hr ⊢
      obtain ⟨rfl, rfl⟩ := hr
      simp [erase]
    · simp only [removeOneExpiredEntryLoop, if_neg hc] at hr ⊢
      obtain ⟨exp, hf, _, _, _⟩ := removeOneExpiredEntryLoop_some now rest k v hnd.2 hr
      have hk : k0 ≠ k := by
        rintro rfl
        exact hnd.1 (List.mem_map_of_mem Prod.fst (mem_of_find rest k0 _ hf))
      simp only [erase, if_neg hk]
      rw [ih hnd.2 hr]

theorem removeOneExpiredEntryLoop_keys_sublist (now : TimePoint) (m : List (Key × ValueEntry)) :
    ((removeOneExpiredEntryLoop now m).2.map Prod.fst).Sublist (m.map Prod.fst) := by
  induction m with
  | nil => simp [removeOneExpiredEntryLoop]
  | cons p rest ih =>
    obtain ⟨k0, e0⟩ := p
    by_cases hc : now ≥ e0.expiration_time ∧ e0.expiration_time ≠ TimePoint.max
    · simp [removeOneExpiredEntryLoop, if_pos hc]
    · simp only [removeOneExpiredEntryLoop, if_neg hc, List.map_cons]
      exact ih.cons₂ _

theorem removeOneExpiredEntry_WF (s : KVStorage) (now : TimePoint) (h : s.WF) :
    (removeOneExpiredEntry s now).2.WF :=
  List.Nodup.sublist (removeOneExpiredEntryLoop_keys_sublist now s.map_) h

theorem find_erase_ne (m : List (Key × ValueEntry)) (k k' : Key) (h : k ≠ k') :
    find (erase m k).2 k' = find m k' := by
  induction m with
  | nil => rfl
  | cons p rest ih =>
    obtain ⟨k0, e0⟩ := p
    by_cases h0 : k0 = k
    · subst h0
      simp only [erase, if_true, find, if_neg h]
    · simp only [erase, if_neg h0, find, ih]

theorem length_erase (m : List (Key × ValueEntry)) (k : Key)
    (h : (find m k).isSome = true) : (erase m k).2.length + 1 = m.length := by
  induction m with
  | nil => simp [find] at h
  | cons p rest ih =>
    obtain ⟨k0, e0⟩ := p
    by_cases h0 : k0 = k
    · simp [erase, h0]
    · simp only [find, if_neg h0] at h
      simp only [erase, if_neg h0, List.length_cons, ih h]

theorem remove_WF (s : KVStorage) (k : Key) (h : s.WF) : (remove s k).2.WF :=
  List.Nodup.sublist (erase_keys_sublist s.map_ k) h


theorem removeOneExpiredEntryTimes_of_no_expired (now : TimePoint) (j : Nat) (s : KVStorage)
    (h : expiredEntries s now = []) :
    removeOneExpiredEntryTimes now j s = (List.replicate j none, s) := by
  induction j with
  | zero => rfl
  | succ j ih =>
    have h1 : (removeOneExpiredEntry s now).1 = none := by
      unfold expiredEntries at h
      simp only [removeOneExpiredEntry, removeOneExpiredEntryLoop_fst, h, List.head?_nil,
        Option.map_none']
    have h2 : (removeOneExpiredEntry s now).2 = s := by
      simp only [removeOneExpiredEntry] at h1 ⊢
      rw [removeOneExpiredEntryLoop_none now s.map_ h1]
    simp only [removeOneExpiredEntryTimes, h1, h2, ih, List.replicate_succ]

theorem removeOneExpiredEntryTimes_eq (now : TimePoint) (l : List (Key × ValueEntry))
    (s : KVStorage) (h : expiredEntries s now = l) (j : Nat) :
    (removeOneExpiredEntryTimes now (l.length + j) s).1 =
        l.map (fun p => some (p.1, p.2.value)) ++ List.replicate j none ∧
      expiredEntries (removeOneExpiredEntryTimes now (l.length + j) s).2 now = [] := by
  induction l generalizing s with
  | nil =>
    simp only [List.length_nil, Nat.zero_add, List.map_nil, List.nil_append]
    rw [removeOneExpiredEntryTimes_of_no_expired now j s h]
    exact ⟨rfl, h⟩
  | cons p rest ih =>
    have hlen : (p :: rest).length + j = (rest.length + j) + 1 := by
      simp only [List.length_cons]
      omega
    have h1 : (removeOneExpiredEntry s now).1 = some (p.1, p.2.value) := by
      unfold expiredEntries at h
      simp only [removeOneExpiredEntry, removeOneExpiredEntryLoop_fst, h, List.head?_cons,
        Option.map_some']
    have h2 : expiredEntries (removeOneExpiredEntry s now).2 now = rest := by
      unfold expiredEntries at h ⊢
      simp only [removeOneExpiredEntry, removeOneExpiredEntryLoop_snd_filter, h, List.tail_cons]
    obtain ⟨ih1, ih2⟩ := ih (removeOneExpiredEntry s now).2 h2
    rw [hlen]
    simp only [removeOneExpiredEntryTimes, h1, ih1, ih2, List.map_cons, List.cons_append,
      and_self]

/-- C11: `removeOneExpiredEntry()` returns absent if and only if no entry of the store has an
expiration that is not the never sentinel and satisfies `now ≥ expiration`; and when the store
has such an entry, the call returns one of them in every iteration order of the map (every
arrangement of the same entries). -/
theorem removeOneExpiredEntry_none_iff (s : KVStorage) (now : TimePoint) :
    ((removeOneExpiredEntry s now).1 = none ↔
      ∀ p ∈ s.map_, ¬ (p.2.expiration_time ≠ TimePoint.max ∧ now ≥ p.2.expiration_time)) ∧
    (∀ s' : KVStorage, s'.map_.Perm s.map_ →
      (∃ p ∈ s.map_, p.2.expiration_time ≠ TimePoint.max ∧ now ≥ p.2.expiration_time) →
      ∃ q ∈ s.map_, (q.2.expiration_time ≠ TimePoint.max ∧ now ≥ q.2.expiration_time) ∧
        (removeOneExpiredEntry s' now).1 = some (q.1, q.2.value)) := by
  constructor
  · simp only [removeOneExpiredEntry, removeOneExpiredEntryLoop_fst, Option.map_eq_none',
      List.head?_eq_none_iff, List.filter_eq_nil_iff]
    constructor
    · intro h p hp hc
      exact h p hp ((isExpired_iff now p.2).2 ⟨hc.2, hc.1⟩)
    · intro h p hp he
      have hc := (isExpired_iff now p.2).1 he
      exact h p hp ⟨hc.2, hc.1⟩
  · rintro s' hperm ⟨p, hp, hc⟩
    have hmem : p ∈ s'.map_.filter (fun p => isExpired now p.2) :=
      List.mem_filter.2 ⟨hperm.symm.subset hp, (isExpired_iff now p.2).2 ⟨hc.2, hc.1⟩⟩
    cases hl : s'.map_.filter (fun p => isExpired now p.2) with
    | nil => rw [hl] at hmem; cases hmem
    | cons q rest =>
      have hq : q ∈ s'.map_.filter (fun p => isExpired now p.2) := by
        rw [hl]; exact List.mem_cons_self _ _
      have hq' := List.mem_filter.1 hq
      have hqc := (isExpired_iff now q.2).1 hq'.2
      refine ⟨q, hperm.subset hq'.1, ⟨hqc.2, hqc.1⟩, ?_⟩
      simp only [removeOneExpiredEntry, removeOneExpiredEntryLoop_fst, hl, List.head?_cons,
        Option.map_some']

/-- C12: draining.  On a store with `m` expired entries at `now`, `m + j` calls of
`removeOneExpiredEntry()` in a row at `now` return the `m` expired entries (as key and value),
one per call, and then absent on each of the `j` further calls; the `m` returned keys are
pairwise distinct, each belongs to an expired entry of the original store, and no expired entry
is left.  The repetition is a total function, so it terminates. -/
theorem removeOneExpiredEntry_drains (s : KVStorage) (now : TimePoint) (h : s.WF) :
    (∀ j, (removeOneExpiredEntryTimes now ((expiredEntries s now).length + j) s).1 =
      (expiredEntries s now).map (fun p => some (p.1, p.2.value)) ++ List.replicate j none) ∧
    ((expiredEntries s now).map Prod.fst).Nodup ∧
    (∀ p ∈ expiredEntries s now,
      p ∈ s.map_ ∧ p.2.expiration_time ≠ TimePoint.max ∧ now ≥ p.2.expiration_time) ∧
    (∀ j, expiredEntries
      (removeOneExpiredEntryTimes now ((expiredEntries s now).length + j) s).2 now = []) := by
  refine ⟨fun j => (removeOneExpiredEntryTimes_eq now _ s rfl j).1, ?_, ?_,
    fun j => (removeOneExpiredEntryTimes_eq now _ s rfl j).2⟩
  · exact List.Nodup.sublist ((List.filter_sublist s.map_).map Prod.fst) h
  · intro p hp
    have hp' := List.mem_filter.1 hp
    have hc := (isExpired_iff now p.2).1 hp'.2
    exact ⟨hp'.1, hc.2, hc.1⟩

theorem removeOneExpiredEntry_drains_witness :
    (construct [("a".toList, "1", 5), ("b".toList, "2", 100), ("c".toList, "3", 2)] 0).WF ∧
    (removeOneExpiredEntryTimes 6000000000 4
      (construct [("a".toList, "1", 5), ("b".toList, "2", 100), ("c".toList, "3", 2)] 0)).1 =
      [some ("a".toList, "1"), some ("c".toList, "3"), none, none] :=
  ⟨by decide,
    (removeOneExpiredEntry_drains
      (construct [("a".toList, "1", 5), ("b".toList, "2", 100), ("c".toList, "3", 2)] 0)
      6000000000 (by decide)).1 2⟩

/-- C13: `removeOneExpiredEntry()` removes at most one entry.  If it returns `(k, v)`, the store
afterwards is the store before with the element of `k` erased: one element fewer, no entry for
`k`, and every other key with the entry it had.  If it returns absent, the store is unchanged. -/
theorem removeOneExpiredEntry_frame (s : KVStorage) (now : TimePoint) (h : s.WF) :
    (∀ k v, (removeOneExpiredEntry s now).1 = some (k, v) →
      (removeOneExpiredEntry s now).2.map_ = (erase s.map_ k).2 ∧
      (removeOneExpiredEntry s now).2.map_.length + 1 = s.map_.length ∧
      find (removeOneExpiredEntry s now).2.map_ k = none ∧
      ∀ k', k' ≠ k → find (removeOneExpiredEntry s now).2.map_ k' = find s.map_ k') ∧
    ((removeOneExpiredEntry s now).1 = none → (removeOneExpiredEntry s now).2 = s) := by
  constructor
  · intro k v hr
    have he : (removeOneExpiredEntry s now).2.map_ = (erase s.map_ k).2 :=
      removeOneExpiredEntryLoop_erase now s.map_ k v h hr
    obtain ⟨exp, hf, _, _, hnone⟩ := removeOneExpiredEntryLoop_some now s.map_ k v h hr
    refine ⟨he, ?_, hnone, fun k' hk' => ?_⟩
    · rw [he]
      exact length_erase s.map_ k (by rw [hf]; rfl)
    · rw [he]
      exact find_erase_ne s.map_ k k' (Ne.symm hk')
  · intro hr
    simp only [removeOneExpiredEntry] at hr ⊢
    rw [removeOneExpiredEntryLoop_none now s.map_ hr]

theorem removeOneExpiredEntry_frame_witness :
    (construct [("a".toList, "1", 5), ("b".toList, "2", 100)] 0).WF ∧
    (removeOneExpiredEntry (construct [("a".toList, "1", 5), ("b".toList, "2", 100)] 0)
      6000000000).1 = some ("a".toList, "1") ∧
    (removeOneExpiredEntry (construct [("a".toList, "1", 5), ("b".toList, "2", 100)] 0)
      6000000000).2.map_.length + 1 =
      (construct [("a".toList, "1", 5), ("b".toList, "2", 100)] 0).map_.length :=
  ⟨by decide, by decide,
    ((removeOneExpiredEntry_frame
      (construct [("a".toList, "1", 5), ("b".toList, "2", 100)] 0) 6000000000
      (by decide)).1 "a".toList "1" (by decide)).2.1⟩

/-- C14, counterexample: the entry written by `set("a", "1", 5)` at tick 0 expires at tick
`5 * 10^9`; a call of `removeOneExpiredEntry()` with the clock at exactly that tick removes and
returns it, although its expiration is not strictly before `now`. -/
theorem removeOneExpiredEntry_at_expiration_counterexample :
    find (set empty 0 "a".toList "1" 5).map_ "a".toList = some ⟨"1", 5000000000⟩ ∧
    ¬ ((5000000000 : TimePoint) < 5000000000) ∧
    (removeOneExpiredEntry (set empty 0 "a".toList "1" 5) 5000000000).1
      = some ("a".toList, "1") ∧
    (removeOneExpiredEntry (set empty 0 "a".toList "1" 5) 5000000000).2 = empty := by
  decide

/-- C14, amended: whenever `removeOneExpiredEntry()` removes and returns an entry, that entry's
expiration is at or before `now` (`expiration ≤ now`) and is not the never sentinel; an entry
whose expiration equals `now` exactly and is not the never sentinel is expired: with such an
entry in the store the call returns an entry, and it returns that one if no element before it in
iteration order is expired; an entry whose expiration is the never sentinel is not removed, also
when the sentinel equals `now`. -/
theorem removeOneExpiredEntry_expiration_le (s : KVStorage) (now : TimePoint) (h : s.WF) :
    (∀ k v, (removeOneExpiredEntry s now).1 = some (k, v) →
      ∃ exp, find s.map_ k = some ⟨v, exp⟩ ∧ exp ≤ now ∧ exp ≠ TimePoint.max ∧
        find (removeOneExpiredEntry s now).2.map_ k = none) ∧
    (∀ k e, find s.map_ k = some e → e.expiration_time = now →
      e.expiration_time ≠ TimePoint.max → (removeOneExpiredEntry s now).1 ≠ none) ∧
    (∀ (front back : List (Key × ValueEntry)) k e, s.map_ = front ++ (k, e) :: back →
      (∀ p ∈ front, isExpired now p.2 = false) → e.expiration_time = now →
      e.expiration_time ≠ TimePoint.max →
      (removeOneExpiredEntry s now).1 = some (k, e.value) ∧
        find (removeOneExpiredEntry s now).2.map_ k = none) ∧
    (∀ k e, find s.map_ k = some e → e.expiration_time = TimePoint.max →
      (∀ v, (removeOneExpiredEntry s now).1 ≠ some (k, v)) ∧
        find (removeOneExpiredEntry s now).2.map_ k = some e) := by
  refine ⟨fun k v hr => ?_, fun k e hf he hmax => ?_,
    fun front back k e hs hfront he hmax => ?_, fun k e hf he => ?_⟩
  · obtain ⟨exp, hf, hge, hne, hnone⟩ := removeOneExpiredEntryLoop_some now s.map_ k v h hr
    exact ⟨exp, hf, hge, hne, hnone⟩
  · have hmem : (k, e) ∈ s.map_.filter (fun p => isExpired now p.2) :=
      List.mem_filter.2 ⟨mem_of_find s.map_ k e hf,
        (isExpired_iff now e).2 ⟨ge_of_eq he.symm, hmax⟩⟩
    simp only [removeOneExpiredEntry, removeOneExpiredEntryLoop_fst, ne_eq, Option.map_eq_none',
      List.head?_eq_none_iff]
    intro hnil
    rw [hnil] at hmem
    cases hmem
  · have hexp : isExpired now e = true :=
      (isExpired_iff now e).2 ⟨ge_of_eq he.symm, hmax⟩
    have hfil : front.filter (fun p => isExpired now p.2) = [] :=
      List.filter_eq_nil_iff.2 (fun p hp => by rw [hfront p hp]; exact Bool.false_ne_true)
    have hret : (removeOneExpiredEntry s now).1 = some (k, e.value) := by
      simp only [removeOneExpiredEntry, removeOneExpiredEntryLoop_fst, hs, List.filter_append,
        hfil, List.nil_append, List.filter_cons, hexp, if_true, List.head?_cons,
        Option.map_some']
    obtain ⟨_, _, _, _, hnone⟩ := removeOneExpiredEntryLoop_some now s.map_ k e.value h hret
    exact ⟨hret, hnone⟩
  · have hnot : ∀ v, (removeOneExpiredEntry s now).1 ≠ some (k, v) := by
      intro v hr
      obtain ⟨exp, hf', _, hne, _⟩ := removeOneExpiredEntryLoop_some now s.map_ k v h hr
      rw [hf] at hf'
      have hexp : e.expiration_time = exp := by
        cases hf'
        rfl
      exact hne (hexp ▸ he)
    refine ⟨hnot, ?_⟩
    cases hr : (removeOneExpiredEntry s now).1 with
    | none =>
      simp only [removeOneExpiredEntry] at hr ⊢
      rw [removeOneExpiredEntryLoop_none now s.map_ hr]
      exact hf
    | some p =>
      obtain ⟨k2, v2⟩ := p
      have hk : k2 ≠ k := by
        rintro rfl
        exact hnot v2 hr
      have hs : (removeOneExpiredEntry s now).2.map_ = (erase s.map_ k2).2 :=
        removeOneExpiredEntryLoop_erase now s.map_ k2 v2 h hr
      rw [hs, find_erase_ne s.map_ k2 k hk]
      exact hf

theorem removeOneExpiredEntry_expiration_le_witness :
    (set empty 0 "a".toList "1" 5).WF ∧
    (∃ exp, find (set empty 0 "a".toList "1" 5).map_ "a".toList = some ⟨"1", exp⟩ ∧
      exp ≤ 5000000000 ∧ exp ≠ TimePoint.max ∧
      find (removeOneExpiredEntry (set empty 0 "a".toList "1" 5) 5000000000).2.map_ "a".toList
        = none) ∧
    ((removeOneExpiredEntry (set empty 0 "a".toList "1" 5) 5000000000).1
        = some ("a".toList, "1") ∧
      find (removeOneExpiredEntry (set empty 0 "a".toList "1" 5) 5000000000).2.map_ "a".toList
        = none) :=
  ⟨by decide,
    (removeOneExpiredEntry_expiration_le (set empty 0 "a".toList "1" 5) 5000000000
      (by decide)).1 "a".toList "1" (by decide),
    (removeOneExpiredEntry_expiration_le (set empty 0 "a".toList "1" 5) 5000000000
      (by decide)).2.2.1 [] [] "a".toList ⟨"1", 5000000000⟩ (by decide) (by decide)
      (by decide) (by decide)⟩

/-! ## Entries that never expire, and the frame of each operation -/

theorem removeOneExpiredEntry_keeps_never (s : KVStorage) (now : TimePoint) (k : Key)
    (e : ValueEntry) (h : s.WF) (hf : find s.map_ k = some e)
    (he : e.expiration_time = TimePoint.max) :
    (∀ v, (removeOneExpiredEntry s now).1 ≠ some (k, v)) ∧
    find (removeOneExpiredEntry s now).2.map_ k = some e := by
  have hnot : ∀ v, (removeOneExpiredEntry s now).1 ≠ some (k, v) := by
    intro v hr
    obtain ⟨exp, hf', _, hne, _⟩ := removeOneExpiredEntryLoop_some now s.map_ k v h hr
    rw [hf] at hf'
    have : e.expiration_time = exp := by
      cases hf'
      rfl
    exact hne (this ▸ he)
  refine ⟨hnot, ?_⟩
  cases hr : (removeOneExpiredEntry s now).1 with
  | none =>
    simp only [removeOneExpiredEntry] at hr ⊢
    rw [removeOneExpiredEntryLoop_none now s.map_ hr]
    exact hf
  | some p =>
    obtain ⟨k2, v2⟩ := p
    have hk : k2 ≠ k := by
      rintro rfl
      exact hnot v2 hr
    have hs : (removeOneExpiredEntry s now).2.map_ = (erase s.map_ k2).2 :=
      removeOneExpiredEntryLoop_erase now s.map_ k2 v2 h hr
    rw [hs, find_erase_ne s.map_ k2 k hk]
    exact hf

theorem removeOneExpiredEntryTimes_keeps_never (now : TimePoint) (n : Nat) (s : KVStorage)
    (k : Key) (e : ValueEntry) (h : s.WF) (hf : find s.map_ k = some e)
    (he : e.expiration_time = TimePoint.max) :
    (∀ v, some (k, v) ∉ (removeOneExpiredEntryTimes now n s).1) ∧
    find (removeOneExpiredEntryTimes now n s).2.map_ k = some e := by
  induction n generalizing s with
  | zero => exact ⟨fun v hv => (by cases hv), hf⟩
  | succ n ih =>
    obtain ⟨h1, h2⟩ := removeOneExpiredEntry_keeps_never s now k e h hf he
    obtain ⟨ih1, ih2⟩ := ih (removeOneExpiredEntry s now).2 (removeOneExpiredEntry_WF s now h) h2
    refine ⟨fun v hv => ?_, ih2⟩
    simp only [removeOneExpiredEntryTimes, List.mem_cons] at hv
    rcases hv with hv | hv
    · exact h1 v hv.symm
    · exact ih1 v hv

/-- C15: an entry written with ttl 0 is never reclaimed.  `set(k, v, 0)` stores `v` with the
sentinel `TimePoint::max()`; on every well-formed store that holds this entry for `k`, and at
every clock instant, `removeOneExpiredEntry()` does not return `k` and leaves the entry of `k`
as it is, also when called any number of times in a row; `set` and `remove` of another key
leave it as well. -/
theorem zero_ttl_never_reclaimed (s : KVStorage) (T0 : TimePoint) (k : Key) (v : Value)
    (h : s.WF) :
    (set s T0 k v 0).WF ∧
    find (set s T0 k v 0).map_ k = some ⟨v, TimePoint.max⟩ ∧
    (∀ s' : KVStorage, s'.WF → find s'.map_ k = some ⟨v, TimePoint.max⟩ → ∀ now,
      (∀ v', (removeOneExpiredEntry s' now).1 ≠ some (k, v')) ∧
      find (removeOneExpiredEntry s' now).2.map_ k = some ⟨v, TimePoint.max⟩ ∧
      (removeOneExpiredEntry s' now).2.WF ∧
      ∀ n, (∀ v', some (k, v') ∉ (removeOneExpiredEntryTimes now n s').1) ∧
        find (removeOneExpiredEntryTimes now n s').2.map_ k = some ⟨v, TimePoint.max⟩) ∧
    (∀ (s' : KVStorage) (k' : Key) (v' : Value) (t' : Nat) (T : TimePoint), k' ≠ k →
      find s'.map_ k = some ⟨v, TimePoint.max⟩ →
      find (set s' T k' v' t').map_ k = some ⟨v, TimePoint.max⟩ ∧
      find (remove s' k').2.map_ k = some ⟨v, TimePoint.max⟩) := by
  refine ⟨set_WF s T0 k v 0 h, by simp [find_set, setExpiration], ?_, ?_⟩
  · intro s' hwf hf now
    obtain ⟨h1, h2⟩ := removeOneExpiredEntry_keeps_never s' now k _ hwf hf rfl
    exact ⟨h1, h2, removeOneExpiredEntry_WF s' now hwf,
      fun n => removeOneExpiredEntryTimes_keeps_never now n s' k _ hwf hf rfl⟩
  · intro s' k' v' t' T hne hf
    constructor
    · rw [find_set, if_neg hne]
      exact hf
    · simp only [remove]
      rw [find_erase_ne s'.map_ k' k hne]
      exact hf

theorem zero_ttl_never_reclaimed_witness :
    (construct [("a".toList, "1", 5)] 0).WF ∧
    find (removeOneExpiredEntry (set (construct [("a".toList, "1", 5)] 0) 0 "x".toList "y" 0)
      TimePoint.max).2.map_ "x".toList = some ⟨"y", TimePoint.max⟩ :=
  ⟨by decide,
    ((zero_ttl_never_reclaimed (construct [("a".toList, "1", 5)] 0) 0 "x".toList "y"
      (by decide)).2.2.1 (set (construct [("a".toList, "1", 5)] 0) 0 "x".toList "y" 0)
      (by decide) (by decide) TimePoint.max).2.1⟩

/-- C16: reads never mutate.  The store after `get` and after `getManySorted` is the store
before the call.  In particular, when `k` has an entry with `now ≥ expiration`, `get(k)` returns
absent and the entry is still there afterwards: `remove(k)` returns true, and if the expiration
is not the never sentinel (the entry is expired), `removeOneExpiredEntry()` returns an entry and
returns `k` within as many calls as there are expired entries. -/
theorem reads_do_not_mutate (s : KVStorage) (now : TimePoint) (k start : Key) (n : Nat) :
    (getCall s now k).2 = s ∧
    (getManySortedCall s now start n).2 = s ∧
    (∀ e, find s.map_ k = some e → now ≥ e.expiration_time →
      (getCall s now k).1 = none ∧
      find (getCall s now k).2.map_ k = some e ∧
      (remove (getCall s now k).2 k).1 = true ∧
      (e.expiration_time ≠ TimePoint.max →
        (removeOneExpiredEntry (getCall s now k).2 now).1 ≠ none ∧
        some (k, e.value) ∈ (removeOneExpiredEntryTimes now
          (expiredEntries (getCall s now k).2 now).length (getCall s now k).2).1)) := by
  refine ⟨rfl, rfl, fun e hf hge => ⟨?_, hf, ?_, fun hne => ?_⟩⟩
  · simp [getCall, get, hf, hge]
  · simp only [getCall, remove, decide_eq_true_eq, gt_iff_lt]
    exact (erase_fst_pos_iff s.map_ k).2 (by rw [hf]; rfl)
  · have hmem : (k, e) ∈ expiredEntries s now :=
      List.mem_filter.2 ⟨mem_of_find s.map_ k e hf, (isExpired_iff now e).2 ⟨hge, hne⟩⟩
    constructor
    · simp only [getCall, removeOneExpiredEntry, removeOneExpiredEntryLoop_fst, ne_eq,
        Option.map_eq_none', List.head?_eq_none_iff]
      intro hnil
      unfold expiredEntries at hmem
      rw [hnil] at hmem
      cases hmem
    · have := (removeOneExpiredEntryTimes_eq now _ s rfl 0).1
      simp only [Nat.add_zero, List.replicate_zero, List.append_nil] at this
      simp only [getCall]
      rw [this]
      exact List.mem_map.2 ⟨(k, e), hmem, rfl⟩

/-- C17: single-key frame of the mutators.  For `k ≠ k'`, `set(k, v, t)` and `remove(k)` leave
the entry of `k'` (presence, value and expiration) as it was, so `get(k')` returns the same
result before and after at every instant. -/
theorem mutators_frame (s : KVStorage) (now : TimePoint) (k k' : Key) (v : Value) (t : Nat)
    (hne : k ≠ k') :
    find (set s now k v t).map_ k' = find s.map_ k' ∧
    find (remove s k).2.map_ k' = find s.map_ k' ∧
    (∀ T, get (set s now k v t) T k' = get s T k') ∧
    (∀ T, get (remove s k).2 T k' = get s T k') := by
  have h1 : find (set s now k v t).map_ k' = find s.map_ k' := by
    rw [find_set, if_neg hne]
  have h2 : find (remove s k).2.map_ k' = find s.map_ k' := by
    simp only [remove]
    exact find_erase_ne s.map_ k k' hne
  refine ⟨h1, h2, fun T => ?_, fun T => ?_⟩
  · simp only [get, h1]
  · simp only [get, h2]

theorem mutators_frame_witness :
    "fast".toList ≠ "slow".toList ∧
    (∀ T, get (set (construct [("fast".toList, "short_life", 3),
        ("slow".toList, "long_life", 10)] 0) 0 "fast".toList "again" 7) T "slow".toList =
      get (construct [("fast".toList, "short_life", 3), ("slow".toList, "long_life", 10)] 0)
        T "slow".toList) :=
  ⟨by decide,
    (mutators_frame (construct [("fast".toList, "short_life", 3),
      ("slow".toList, "long_life", 10)] 0) 0 "fast".toList "slow".toList "again" 7
      (by decide)).2.2.1⟩


/-! ## Reads after reclamation, and `getManySorted` against `get` -/

theorem getManySorted_eq_take (s : KVStorage) (now : TimePoint) (key : Key) (count : Nat) :
    getManySorted s now key count =
      some (((lower_bound ((s.map_.map Prod.fst).insertionSort (fun a b => a ≤ b))
        key).filterMap (liveAt s now)).take count) := by
  unfold getManySorted
  by_cases hc : count = 0
  · simp [hc]
  · rw [if_neg hc, getManySortedLoop_eq]
    · simp
    · intro k hk
      have h1 : k ∈ (s.map_.map Prod.fst).insertionSort (fun a b => a ≤ b) :=
        (List.dropWhile_sublist _).subset hk
      have h2 : k ∈ s.map_.map Prod.fst := (List.perm_insertionSort _ _).subset h1
      cases hf : find s.map_ k with
      | none => exact absurd h2 ((find_eq_none_iff s.map_ k).1 hf)
      | some e => rfl

theorem get_removeOneExpiredEntry (s : KVStorage) (now T : TimePoint) (k : Key) (h : s.WF)
    (hT : now ≤ T) : get (removeOneExpiredEntry s now).2 T k = get s T k := by
  cases hr : (removeOneExpiredEntry s now).1 with
  | none =>
    simp only [removeOneExpiredEntry] at hr ⊢
    rw [removeOneExpiredEntryLoop_none now s.map_ hr]
  | some p =>
    obtain ⟨k2, v2⟩ := p
    obtain ⟨exp, hf, hge, _, hnone⟩ := removeOneExpiredEntryLoop_some now s.map_ k2 v2 h hr
    by_cases hk : k2 = k
    · subst hk
      have hge' : T ≥ exp := le_trans hge hT
      simp only [removeOneExpiredEntry, get, hnone, hf, hge', if_true]
    · have hs : (removeOneExpiredEntry s now).2.map_ = (erase s.map_ k2).2 :=
        removeOneExpiredEntryLoop_erase now s.map_ k2 v2 h hr
      simp only [get, hs, find_erase_ne s.map_ k2 k hk]

/-- C18: reclamation is invisible to reads.  For a call of `removeOneExpiredEntry()` made at
`now` and every instant `T ≥ now`, `get(k)` and `getManySorted(start, n)` evaluated at `T` return
the same on the store after the call as on the store before it. -/
theorem reclamation_invisible_to_reads (s : KVStorage) (now T : TimePoint) (k start : Key)
    (n : Nat) (h : s.WF) (hT : now ≤ T) :
    get (removeOneExpiredEntry s now).2 T k = get s T k ∧
    getManySorted (removeOneExpiredEntry s now).2 T start n = getManySorted s T start n := by
  refine ⟨get_removeOneExpiredEntry s now T k h hT, ?_⟩
  have h' := removeOneExpiredEntry_WF s now h
  rw [getManySorted_eq _ T start n h', getManySorted_eq s T start n h, List.filter_filter,
    List.filter_filter, filter_insertionSort_comm _ _ h', filter_insertionSort_comm _ _ h]
  have hfil : (removeOneExpiredEntry s now).2.map_.filter
      (fun a => decide (T < a.2.expiration_time) && decide (¬ a.1 < start)) =
      s.map_.filter (fun a => decide (T < a.2.expiration_time) && decide (¬ a.1 < start)) := by
    apply removeOneExpiredEntryLoop_filter_of_false
    intro p _ hp
    have hc := (isExpired_iff now p.2).1 hp
    have hnl : ¬ T < p.2.expiration_time := not_lt.2 (le_trans hc.1 hT)
    simp [hnl]
  rw [hfil]

theorem reclamation_invisible_to_reads_witness :
    (construct [("a".toList, "1", 5), ("b".toList, "2", 100)] 0).WF ∧
    getManySorted (removeOneExpiredEntry
      (construct [("a".toList, "1", 5), ("b".toList, "2", 100)] 0) 6000000000).2
      7000000000 "a".toList 2 =
    getManySorted (construct [("a".toList, "1", 5), ("b".toList, "2", 100)] 0)
      7000000000 "a".toList 2 :=
  ⟨by decide,
    (reclamation_invisible_to_reads
      (construct [("a".toList, "1", 5), ("b".toList, "2", 100)] 0) 6000000000 7000000000
      "a".toList "a".toList 2 (by decide) (by decide)).2⟩

/-- C19: `getManySorted` agrees with `get`.  Every pair `(k, v)` returned by
`getManySorted(start, n)` satisfies `get(k) = v` at `now`; and when `n` is at least the number
of keys in the store, the returned keys are exactly the keys `k ≥ start` for which `get(k)` is
not absent at `now`. -/
theorem getManySorted_agrees_with_get (s : KVStorage) (now : TimePoint) (start : Key) (n : Nat)
    (h : s.WF) :
    ∃ r, getManySorted s now start n = some r ∧
      (∀ p ∈ r, get s now p.1 = some p.2) ∧
      (s.map_.length ≤ n →
        ∀ k, k ∈ r.map Prod.fst ↔ (start ≤ k ∧ get s now k ≠ none)) := by
  refine ⟨_, getManySorted_eq s now start n h, ?_, ?_⟩
  · intro p hp
    obtain ⟨q, hq, rfl⟩ := List.mem_map.1 (List.mem_of_mem_take hp)
    have hlive : now < q.2.expiration_time := by simpa using (List.mem_filter.1 hq).2
    have hmem : q ∈ s.map_ := (List.perm_insertionSort keyLE s.map_).subset
      (List.mem_of_mem_filter (List.mem_of_mem_filter hq))
    simp only [get, find_of_mem s.map_ q.1 q.2 h hmem, ge_iff_le, if_neg (not_le.2 hlive)]
  · intro hn k
    have hlen : ((((s.map_.insertionSort keyLE).filter (fun p => decide (¬ p.1 < start))).filter
        (fun p => decide (now < p.2.expiration_time))).map
          (fun p => (p.1, p.2.value))).length ≤ n := by
      rw [List.length_map]
      exact le_trans (List.length_filter_le _ _)
        (le_trans (List.length_filter_le _ _)
          (le_trans (le_of_eq (List.length_insertionSort keyLE s.map_)) hn))
    rw [List.take_of_length_le hlen]
    constructor
    · intro hk
      obtain ⟨p, hp, rfl⟩ := List.mem_map.1 hk
      obtain ⟨q, hq, rfl⟩ := List.mem_map.1 hp
      have hlive : now < q.2.expiration_time := by simpa using (List.mem_filter.1 hq).2
      have hge : ¬ q.1 < start := by
        simpa using (List.mem_filter.1 (List.mem_of_mem_filter hq)).2
      have hmem : q ∈ s.map_ := (List.perm_insertionSort keyLE s.map_).subset
        (List.mem_of_mem_filter (List.mem_of_mem_filter hq))
      refine ⟨not_lt.1 hge, ?_⟩
      simp only [get, find_of_mem s.map_ q.1 q.2 h hmem, ge_iff_le, if_neg (not_le.2 hlive)]
      exact Option.some_ne_none _
    · rintro ⟨hge, hget⟩
      cases hf : find s.map_ k with
      | none => simp [get, hf] at hget
      | some e =>
        have hlive : now < e.expiration_time := by
          by_contra hnl
          simp [get, hf, not_lt.1 hnl] at hget
        have hmem : (k, e) ∈ s.map_.insertionSort keyLE :=
          (List.perm_insertionSort keyLE s.map_).symm.subset (mem_of_find s.map_ k e hf)
        refine List.mem_map.2 ⟨(k, e.value), List.mem_map.2 ⟨(k, e), ?_, rfl⟩, rfl⟩
        refine List.mem_filter.2 ⟨List.mem_filter.2 ⟨hmem, ?_⟩, ?_⟩
        · simpa using hge
        · simpa using hlive

theorem getManySorted_agrees_with_get_witness :
    (construct [("b".toList, "2", 50), ("a".toList, "1", 50), ("c".toList, "3", 1)] 0).WF ∧
    ∃ r, getManySorted (construct [("b".toList, "2", 50), ("a".toList, "1", 50),
        ("c".toList, "3", 1)] 0) 2000000000 "b".toList 3 = some r ∧
      (∀ p ∈ r, get (construct [("b".toList, "2", 50), ("a".toList, "1", 50),
        ("c".toList, "3", 1)] 0) 2000000000 p.1 = some p.2) ∧
      ((construct [("b".toList, "2", 50), ("a".toList, "1", 50),
        ("c".toList, "3", 1)] 0).map_.length ≤ 3 →
        ∀ k, k ∈ r.map Prod.fst ↔ ("b".toList ≤ k ∧
          get (construct [("b".toList, "2", 50), ("a".toList, "1", 50),
            ("c".toList, "3", 1)] 0) 2000000000 k ≠ none)) :=
  ⟨by decide, getManySorted_agrees_with_get _ 2000000000 "b".toList 3 (by decide)⟩

/-- C20: monotonicity in count.  For `n ≤ m`, `getManySorted(start, n)` is a prefix of
`getManySorted(start, m)`; and if `getManySorted(start, n)` has fewer than `n` elements, then
`getManySorted(start, m)` is equal to it. -/
theorem getManySorted_mono_count (s : KVStorage) (now : TimePoint) (start : Key) (n m : Nat)
    (hnm : n ≤ m) :
    ∃ rn rm, getManySorted s now start n = some rn ∧ getManySorted s now start m = some rm ∧
      rn <+: rm ∧ (rn.length < n → rm = rn) := by
  refine ⟨_, _, getManySorted_eq_take s now start n, getManySorted_eq_take s now start m,
    List.take_prefix_take_left _ hnm, fun hlt => ?_⟩
  rw [List.length_take] at hlt
  have hl : ((lower_bound ((s.map_.map Prod.fst).insertionSort (fun a b => a ≤ b))
      start).filterMap (liveAt s now)).length ≤ n := by omega
  rw [List.take_of_length_le hl, List.take_of_length_le (le_trans hl hnm)]

theorem getManySorted_mono_count_witness :
    (1 : Nat) ≤ 3 ∧
    ∃ rn rm, getManySorted (construct [("b".toList, "2", 50), ("a".toList, "1", 50)] 0)
        1000000000 "a".toList 1 = some rn ∧
      getManySorted (construct [("b".toList, "2", 50), ("a".toList, "1", 50)] 0)
        1000000000 "a".toList 3 = some rm ∧
      rn <+: rm ∧ (rn.length < 1 → rm = rn) :=
  ⟨by decide, getManySorted_mono_count _ 1000000000 "a".toList 1 3 (by decide)⟩

end KVStorage
